import Mathlib

/-
Verification of the transcriber repository's cache / merge / overlay logic.

Shallow embedding conventions:
 * Python strings are modelled as `List Char` (`Str`); `str.lower()` is modelled
   characterwise over the repertoire the program manipulates (ASCII letters and
   the Romanian diacritics appearing in the replacement tables).
 * Python dicts are modelled as association lists with first-occurrence update
   (`dinsert`) and first-occurrence lookup (`dlookup`), which coincides with
   dict semantics on the nodup-key lists the program builds.
 * External collaborators (translator, speech synthesizer, filesystem) are
   explicit parameters; ghost logs record their invocations.
-/

namespace Transcriber

abbrev Str := List Char

/-- Whitespace recognized by Python's `str.split()` / `str.strip()` (the
ASCII repertoire). -/
def pySpace (c : Char) : Bool :=
  c = ' ' || c = '\t' || c = '\n' || c = '\r' || c = '\x0b' || c = '\x0c'

/-- Case pairs for the letters the program manipulates: ASCII plus the Romanian
diacritics used in the replacement tables (both cedilla and comma forms). -/
def lowerPairs : List (Char × Char) :=
  [('A', 'a'), ('B', 'b'), ('C', 'c'), ('D', 'd'), ('E', 'e'), ('F', 'f'),
   ('G', 'g'), ('H', 'h'), ('I', 'i'), ('J', 'j'), ('K', 'k'), ('L', 'l'),
   ('M', 'm'), ('N', 'n'), ('O', 'o'), ('P', 'p'), ('Q', 'q'), ('R', 'r'),
   ('S', 's'), ('T', 't'), ('U', 'u'), ('V', 'v'), ('W', 'w'), ('X', 'x'),
   ('Y', 'y'), ('Z', 'z'),
   ('Ă', 'ă'), ('Â', 'â'), ('Î', 'î'), ('Ș', 'ș'), ('Ş', 'ş'),
   ('Ț', 'ț'), ('Ţ', 'ţ')]

/-- Characterwise model of Python `str.lower()`. -/
def pyLowerChar (c : Char) : Char :=
  match lowerPairs.find? (fun p => decide (p.1 = c)) with
  | some p => p.2
  | none => c

/-- `phrase.lower()`. -/
def pyLower (s : Str) : Str := s.map pyLowerChar

/-- `s.strip()`. -/
def pyStrip (s : Str) : Str :=
  ((s.dropWhile pySpace).reverse.dropWhile pySpace).reverse

/-- Fuel-indexed worker for `phrase.split()`, structural in the fuel so that
concrete inputs evaluate inside the kernel.  The fuel always dominates the
length of the remaining input (each step strictly shortens it), so the
fuel-exhaustion branch is unreachable; `pyWords` below supplies `s.length`. -/
def pyWordsF : Nat → Str → List Str
  | _, [] => []
  | 0, _ :: _ => []
  | fuel + 1, c :: cs =>
    if pySpace c then pyWordsF fuel cs
    else (c :: cs.takeWhile (fun d => !pySpace d)) ::
         pyWordsF fuel (cs.dropWhile (fun d => !pySpace d))

/-- `phrase.split()`: maximal runs of non-whitespace characters. -/
def pyWords (s : Str) : List Str := pyWordsF s.length s

/-- `' '.join(words)`. -/
def joinSp : List Str → Str
  | [] => []
  | [w] => w
  | w :: ws => w ++ ' ' :: joinSp ws

/-- `NORMALIZATION_MAP = {'vinere': 'vineri'}` (identical in both source files). -/
def NORMALIZATION_MAP : List (Str × Str) :=
  [("vinere".data, "vineri".data)]

/-- `m.get(w, w)` on the normalization table. -/
def mapGetD (m : List (Str × Str)) (w : Str) : Str :=
  match m.find? (fun p => decide (p.1 = w)) with
  | some p => p.2
  | none => w

/-- `normalize(phrase)`: lowercase, split into words, replace each word through
`NORMALIZATION_MAP`, rejoin with single spaces (identical in both files). -/
def normalize (phrase : Str) : Str :=
  joinSp ((pyWords (pyLower phrase)).map (fun w => mapGetD NORMALIZATION_MAP w))

/-- Python `s.replace(pat, rep)`: left-to-right, non-overlapping, replaces all
occurrences.  The program only uses non-empty patterns; the empty-pattern guard
just returns `s` unchanged. -/
def replaceAll (pat rep : Str) : Str → Str
  | [] => []
  | c :: cs =>
    if h : pat ≠ [] ∧ pat.isPrefixOf (c :: cs)
    then rep ++ replaceAll pat rep ((c :: cs).drop pat.length)
    else c :: replaceAll pat rep cs
termination_by s => s.length
decreasing_by
  · have hlen : 1 ≤ pat.length := by
      cases pat with
      | nil => exact absurd rfl h.1
      | cons a l => simp
    simp only [List.length_drop, List.length_cons]
    omega
  · simp only [List.length_cons]; omega

/-- `apply_replacements(phrase, rules)`: lowercase, then fold each ordered rule
as a replace-all over the cumulative result. -/
def applyReplacements (phrase : Str) (rules : List (Str × Str)) : Str :=
  rules.foldl (fun res r => replaceAll r.1 r.2 res) (pyLower phrase)

/-- `IPA_REPLACEMENTS` (identical in both source files). -/
def IPA_REPLACEMENTS : List (Str × Str) :=
  [("ce".data, "t͡ʃe".data), ("ci".data, "t͡ʃi".data),
   ("ge".data, "d͡ʒe".data), ("gi".data, "d͡ʒi".data),
   ("ch".data, "k".data), ("gh".data, "g".data),
   ("ă".data, "ə".data), ("â".data, "ɨ".data), ("î".data, "ɨ".data),
   ("ș".data, "ʃ".data), ("ţ".data, "t͡s".data), ("ț".data, "t͡s".data)]

/-- `RU_REPLACEMENTS` (identical in both source files). -/
def RU_REPLACEMENTS : List (Str × Str) :=
  [("ce".data, "че".data), ("ci".data, "чи".data),
   ("ge".data, "дже".data), ("gi".data, "джи".data),
   ("ch".data, "к".data), ("gh".data, "г".data),
   ("ă".data, "э".data), ("â".data, "ы".data), ("î".data, "ы".data),
   ("ș".data, "ш".data), ("ţ".data, "ц".data), ("ț".data, "ц".data),
   ("a".data, "а".data), ("e".data, "е".data), ("i".data, "и".data),
   ("o".data, "о".data), ("u".data, "у".data), ("b".data, "б".data),
   ("c".data, "к".data), ("d".data, "д".data), ("f".data, "ф".data),
   ("g".data, "г".data), ("h".data, "х".data), ("j".data, "ж".data),
   ("k".data, "к".data), ("l".data, "л".data), ("m".data, "м".data),
   ("n".data, "н".data), ("p".data, "п".data), ("q".data, "к".data),
   ("r".data, "р".data), ("s".data, "с".data), ("t".data, "т".data),
   ("v".data, "в".data), ("w".data, "в".data), ("x".data, "кс".data),
   ("y".data, "и".data), ("z".data, "з".data)]

section Dict

variable {K V : Type} [DecidableEq K]

/-- Python `d[k]`-style lookup (first matching key; insertion keeps keys
unique, so this models dict lookup). -/
def dlookup : List (K × V) → K → Option V
  | [], _ => none
  | p :: ps, k => if p.1 = k then some p.2 else dlookup ps k

/-- Python `d[k] = v`: replace the value at the first occurrence of `k` in
place, else append at the end (dict insertion order). -/
def dinsert : List (K × V) → K → V → List (K × V)
  | [], k, v => [(k, v)]
  | p :: ps, k, v => if p.1 = k then (k, v) :: ps else p :: dinsert ps k v

/-- Python `list(d.values())`. -/
def dvalues (d : List (K × V)) : List V := d.map (fun p => p.2)

/-- Python `list(d.keys())`. -/
def dkeys (d : List (K × V)) : List K := d.map (fun p => p.1)

end Dict

/-- A GUI cache / session record (the ten CSV columns of `romanian_gui.py`). -/
structure Rec where
  original : Str
  normalized : Str
  ipa : Str
  ru_phonetic : Str
  translation : Str
  lang : Str
  known : Str
  category : Str
  date_added : Str
  date_known : Str
deriving DecidableEq

/-- A CLI record (the five CSV columns of `romanian_transcriber.py`). -/
structure RecC where
  original : Str
  normalized : Str
  ipa : Str
  ru_phonetic : Str
  translation : Str
deriving DecidableEq

/-- The GUI cache key `(row.get("normalized","").strip(), row.get("lang","").strip())`. -/
abbrev GKey := Str × Str

/-- The GUI cache store: dict from `(normalized, lang)` to record. -/
abbrev GStore := List (GKey × Rec)

/-- The CLI cache store: dict from stripped `normalized` to record. -/
abbrev CStore := List (Str × RecC)

/-- `translate_phrase` of `romanian_gui.py`: on collaborator success return the
translation text, on failure return the sentinel string embedding the reason
instead of raising.  The external translator is the parameter `tr`, taking the
phrase and the destination language. -/
def translate_phrase (tr : Str → Str → Except Str Str) (phrase dest : Str) : Str :=
  match tr phrase dest with
  | Except.ok t => t
  | Except.error e => "[ошибка перевода: ".data ++ e ++ "]".data

/-- `translate_phrase` of `romanian_transcriber.py` (fixed ro→ru route). -/
def translate_phrase_cli (tr : Str → Except Str Str) (phrase : Str) : Str :=
  match tr phrase with
  | Except.ok t => t
  | Except.error e => "[ошибка перевода: ".data ++ e ++ "]".data

/-- State threaded through the GUI `process_phrases` loop, plus ghost logs of
the external calls it makes. -/
structure ProcOut where
  results : List Rec
  cache : GStore
  transCalls : List (Str × Str)
  speakCalls : List Str
deriving DecidableEq

/-- `process_phrases` of `romanian_gui.py` (lines 117-140): for each phrase,
normalize, look up `(normalized, lang)` in the cache; a hit is appended to the
results untouched, a miss builds the record, translates it, stores it in the
cache, appends it and synthesizes its audio.  The source iterates over
`set(phrases)`; callers here pass the deduplicated batch as a list, in the
(unspecified) iteration order of that set. -/
def process_phrases (tr : Str → Str → Except Str Str) (phrases : List Str)
    (cache0 : GStore) (lang study category today : Str) : ProcOut :=
  phrases.foldl (fun st phrase =>
    let normalized := normalize phrase
    let key : GKey := (normalized, lang)
    match dlookup st.cache key with
    | some r => { st with results := st.results ++ [r] }
    | none =>
      let dest := if lang ≠ study then lang else "ru".data
      let r : Rec :=
        { original := phrase
          normalized := normalized
          ipa := applyReplacements normalized
            (if study = "ro".data then IPA_REPLACEMENTS else [])
          ru_phonetic := applyReplacements normalized
            (if study = "ro".data then RU_REPLACEMENTS else [])
          translation := translate_phrase tr normalized dest
          lang := lang
          known := "❌".data
          category := category
          date_added := today
          date_known := [] }
      { results := st.results ++ [r]
        cache := dinsert st.cache key r
        transCalls := st.transCalls ++ [(normalized, dest)]
        speakCalls := st.speakCalls ++ [normalized] })
    { results := [], cache := cache0, transCalls := [], speakCalls := [] }

/-- `transcribe` of `romanian_transcriber.py` (lines 71-89): consult the cache
under the normalized phrase; on a hit return the cached record, on a miss build
a new record (the cache is NOT updated by the caller either).  The second
component is the ghost log of translator invocations. -/
def transcribe (tr : Str → Except Str Str) (phrase : Str) (cache : CStore) :
    RecC × List Str :=
  let n := normalize phrase
  match dlookup cache n with
  | some r => (r, [])
  | none =>
    ({ original := phrase
       normalized := n
       ipa := applyReplacements n IPA_REPLACEMENTS
       ru_phonetic := applyReplacements n RU_REPLACEMENTS
       translation := translate_phrase_cli tr n }, [n])

/-- The batch loop of `main` in `romanian_transcriber.py` (lines 122-137):
`results` starts as `list(cache.values())` and every `transcribe` result is
appended, then the whole list is written to the CSV.  First component: the rows
written by `save_to_csv`; second: the ghost log of translator invocations.
The source iterates over `set(input_items)`; callers pass the deduplicated
phrases as a list. -/
def cli_run (tr : Str → Except Str Str) (cache : CStore) (phrases : List Str) :
    List RecC × List Str :=
  phrases.foldl (fun st p =>
    let r := transcribe tr p cache
    (st.1 ++ [r.1], st.2 ++ r.2))
    (dvalues cache, [])

/-- `read_existing_csv` of `romanian_transcriber.py` (lines 58-69): key each
row by its stripped `normalized` field, skipping rows whose key is empty
(`if key:` on a string). -/
def read_existing_csv (rows : List RecC) : CStore :=
  rows.foldl (fun d row =>
    let key := pyStrip row.normalized
    if key ≠ [] then dinsert d key row else d) []

/-- A raw GUI CSV row: the four newer columns may be absent from the file
(`None` here), in which case `setdefault` backfills them during load. -/
structure Row where
  original : Str
  normalized : Str
  ipa : Str
  ru_phonetic : Str
  translation : Str
  lang : Str
  known? : Option Str
  category? : Option Str
  date_added? : Option Str
  date_known? : Option Str
deriving DecidableEq

/-- The `row.setdefault(...)` block of `load_csv_cache`. -/
def rowDefaults (r : Row) : Rec :=
  { original := r.original
    normalized := r.normalized
    ipa := r.ipa
    ru_phonetic := r.ru_phonetic
    translation := r.translation
    lang := r.lang
    known := r.known?.getD "❌".data
    category := r.category?.getD []
    date_added := r.date_added?.getD []
    date_known := r.date_known?.getD [] }

/-- Python truthiness of a tuple: a tuple with elements is ALWAYS truthy,
whatever the elements are.  `load_csv_cache` tests `if key:` on the 2-tuple
`(normalized, lang)`, so the test never fails. -/
def pyTruthyPair {α β : Type} (_ : α × β) : Bool := true

/-- `load_csv_cache` of `romanian_gui.py` (lines 88-103): backfill defaults,
key by the stripped `(normalized, lang)` pair, and keep the row whenever
`if key:` succeeds — which, the key being a 2-tuple, is always. -/
def load_csv_cache (rows : List Row) : GStore :=
  rows.foldl (fun d row =>
    let rd := rowDefaults row
    let key : GKey := (pyStrip rd.normalized, pyStrip rd.lang)
    if pyTruthyPair key then dinsert d key rd else d) []

/-- The identity key `load_csv_cache` computes for a row: the stripped
`(normalized, lang)` pair of the defaults-applied row. -/
def rowKey (r : Row) : GKey :=
  (pyStrip (rowDefaults r).normalized, pyStrip (rowDefaults r).lang)

/-- The append-to-session merge of `romanian_gui.py` (lines 219-226):
`merged = load_csv_cache(existing_path); for r in results:
merged[(r['normalized'], r['lang'])] = r`. -/
def merge_session (prior : GStore) (results : List Rec) : GStore :=
  results.foldl (fun m r => dinsert m (r.normalized, r.lang) r) prior

/-- The last record of the batch carrying a given identity key (the value an
unconditional-overwrite merge must retain for that key). -/
def lastBatch (results : List Rec) (k : GKey) : Option Rec :=
  results.reverse.find? (fun r => decide ((r.normalized, r.lang) = k))

/-- The in-place reconciliation loop of the flashcards tab (lines 319-327):
every DISPLAYED row gets its `known` / `date_known` replaced by the overlay
values when the overlay holds an entry for the row's key; rows filtered out of
the display are left untouched.  Because the loop mutates the shared row dicts,
this is what `st.session_state['results']` holds when a save button fires. -/
def reconcile_displayed (displayP : Rec → Bool)
    (known_map date_known_map : List (GKey × Str)) (results : List Rec) :
    List Rec :=
  results.map (fun r =>
    if displayP r then
      { r with
        known := (dlookup known_map (r.normalized, r.lang)).getD r.known
        date_known := (dlookup date_known_map (r.normalized, r.lang)).getD r.date_known }
    else r)

/-- The rows written by the `save_cards` button (lines 366-371): it saves
`st.session_state['results']` as reconciled in place by the flashcards loop
earlier in the same script run. -/
def save_cards_rows (displayP : Rec → Bool)
    (known_map date_known_map : List (GKey × Str)) (results : List Rec) :
    List Rec :=
  reconcile_displayed displayP known_map date_known_map results

/-- The overlay / local-variable state of one GUI script run.  `kvar` models
the Python local `k`, which is assigned ONLY inside the know-button branch. -/
structure UIState where
  known_map : List (GKey × Str)
  date_known_map : List (GKey × Str)
  kvar : Option GKey
deriving DecidableEq

/-- Python runtime errors surfaced by the embedding. -/
inductive PyErr
  | nameError
deriving DecidableEq

/-- The `know_{idx}` button handler (lines 354-359): binds the local `k` to
the card's key and records `known = yes` stamped with today's date. -/
def know_handler (key : GKey) (today : Str) (s : UIState) : UIState :=
  { known_map := dinsert s.known_map key "✅".data
    date_known_map := dinsert s.date_known_map key today
    kvar := some key }

/-- The `dontknow_{idx}` button handler (lines 360-364): it reads the local
`k` — which only the know-branch assigns — so in a run where no know button
fired the name is unbound and Python raises `NameError`. -/
def dontknow_handler (s : UIState) : Except PyErr UIState :=
  match s.kvar with
  | none => Except.error PyErr.nameError
  | some k =>
    Except.ok
      { s with
        known_map := dinsert s.known_map k "❌".data
        date_known_map := dinsert s.date_known_map k [] }

/-- A fresh script run: `known_map` / `date_known_map` may carry entries from
`st.session_state`, but the local `k` is unbound. -/
def runStart (km dkm : List (GKey × Str)) : UIState :=
  { known_map := km, date_known_map := dkm, kvar := none }

/-- `AUDIO_FOLDER` of the GUI. -/
def AUDIO_FOLDER : Str := "audio_files".data

/-- `os.path.join` for the flat paths the program builds. -/
def ospathJoin (a b : Str) : Str := a ++ '/' :: b

/-- Result of the GUI `speak`: returned path, resulting filesystem (a dict
from path to synthesized content), and ghost count of synthesizer calls. -/
structure SpeakOut where
  path : Str
  fs : List (Str × Str)
  synthCalls : Nat
deriving DecidableEq

/-- `speak` of `romanian_gui.py` (lines 81-86): if the derived path exists the
file is reused untouched and no synthesis happens; otherwise the synthesizer
`synth` produces the file, which is persisted, and the path is returned. -/
def gui_speak (synth : Str → Str → Str) (phrase filename lang : Str)
    (fs : List (Str × Str)) : SpeakOut :=
  let mp3_path := ospathJoin AUDIO_FOLDER filename
  if (dlookup fs mp3_path).isSome then
    { path := mp3_path, fs := fs, synthCalls := 0 }
  else
    { path := mp3_path, fs := dinsert fs mp3_path (synth phrase lang), synthCalls := 1 }

/-- `speak` of `romanian_transcriber.py` (lines 53-56): no existence check —
it always synthesizes and writes `filename + ".mp3"`.  Returns the filesystem
after the write and the ghost count of synthesizer calls. -/
def cli_speak (synth : Str → Str → Str) (phrase lang filename : Str)
    (fs : List (Str × Str)) : List (Str × Str) × Nat :=
  let filename_mp3 := filename ++ ".mp3".data
  (dinsert fs filename_mp3 (synth phrase lang), 1)

/-! Concrete fixtures used to instantiate the claims. -/

/-- A GUI record fixture with the given identity and status fields. -/
def mkRec (normalized lang known date_known : Str) : Rec :=
  { original := normalized
    normalized := normalized
    ipa := []
    ru_phonetic := []
    translation := normalized
    lang := lang
    known := known
    category := []
    date_added := []
    date_known := date_known }

/-- A CLI record fixture with the given `normalized` and `translation`. -/
def mkRecC (normalized translation : Str) : RecC :=
  { original := normalized
    normalized := normalized
    ipa := []
    ru_phonetic := []
    translation := translation }

/-- A translator oracle that always succeeds, echoing its input. -/
def trOk : Str → Except Str Str := fun t => Except.ok t

/-- A GUI translator oracle that always succeeds, echoing its input. -/
def trOkG : Str → Str → Except Str Str := fun t _ => Except.ok t

/-- A speech synthesizer oracle: content is the text and language glued. -/
def synth0 : Str → Str → Str := fun t l => t ++ l

/-- A GUI translator oracle that always fails with a fixed reason. -/
def trFail : Str → Str → Except Str Str := fun _ _ => Except.error "net down".data

/-- A 3-record prior session store, keys `a`, `b`, `c` (target lang `ru`). -/
def prior3 : GStore :=
  [(("a".data, "ru".data), mkRec "a".data "ru".data "✅".data "2024-01-01".data),
   (("b".data, "ru".data), mkRec "b".data "ru".data "❌".data []),
   (("c".data, "ru".data), mkRec "c".data "ru".data "❌".data [])]

/-- A freshly processed batch: 1 record overlapping `prior3` (key `a`) and 2
new ones (keys `d`, `e`). -/
def batch3 : List Rec :=
  [mkRec "a".data "ru".data "❌".data [],
   mkRec "d".data "ru".data "❌".data [],
   mkRec "e".data "ru".data "❌".data []]

/-- A persisted GUI row whose `normalized` field is blank: it has no usable
identity key, so per the spec it must be skipped during load. -/
def blankRow : Row :=
  { original := "???".data
    normalized := []
    ipa := []
    ru_phonetic := []
    translation := "перевод".data
    lang := "ru".data
    known? := none
    category? := none
    date_added? := none
    date_known? := none }

/-- The identity key `("vineri", "ru")` used by the concrete scenarios. -/
def k0 : GKey := ("vineri".data, "ru".data)

/-- A stored record for `k0` whose persisted status is still `not known`. -/
def rec0 : Rec := mkRec "vineri".data "ru".data "❌".data []

/-- An overlay (`st.session_state['known_map']`) holding a live edit: the user
marked `k0` as known during the current run. -/
def om0 : List (GKey × Str) := [(k0, "✅".data)]

/-- The matching `date_known_map` overlay entry for `k0`. -/
def dm0 : List (GKey × Str) := [(k0, "2024-06-01".data)]

/-- Two CLI rows sharing the identity key `x` (second one differs). -/
def rowsW : List RecC :=
  [mkRecC "x".data "first".data, mkRecC "x".data "second".data]

/-- Two GUI rows sharing the identity key `("x", "ru")` (second one differs). -/
def growsW : List Row :=
  [{ original := "x".data
     normalized := "x".data
     ipa := []
     ru_phonetic := []
     translation := "first".data
     lang := "ru".data
     known? := none
     category? := none
     date_added? := none
     date_known? := none },
   { original := "x".data
     normalized := "x".data
     ipa := []
     ru_phonetic := []
     translation := "second".data
     lang := "ru".data
     known? := some "✅".data
     category? := none
     date_added? := none
     date_known? := none }]

/-- A filesystem on which the CLI audio path `audio.mp3` already exists. -/
def fs0 : List (Str × Str) := [("audio.mp3".data, "OLD".data)]

section DictLemmas

variable {K V : Type} [DecidableEq K]

theorem dlookup_dinsert_self (d : List (K × V)) (k : K) (v : V) :
    dlookup (dinsert d k v) k = some v := by
  induction d with
  | nil => simp [dinsert, dlookup]
  | cons p ps ih =>
    by_cases h : p.1 = k
    · simp [dinsert, h, dlookup]
    · simp [dinsert, h, dlookup, ih]

theorem dlookup_dinsert_ne (d : List (K × V)) (k k' : K) (v : V) (h : k' ≠ k) :
    dlookup (dinsert d k v) k' = dlookup d k' := by
  induction d with
  | nil => simp [dinsert, dlookup, if_neg (Ne.symm h)]
  | cons p ps ih =>
    by_cases hp : p.1 = k
    · simp [dinsert, hp, dlookup, if_neg (Ne.symm h)]
    · simp [dinsert, hp, dlookup, ih]

theorem mem_dkeys (d : List (K × V)) (k : K) :
    k ∈ dkeys d ↔ ∃ p ∈ d, p.1 = k := by
  simp [dkeys]

theorem dlookup_eq_none_iff (d : List (K × V)) (k : K) :
    dlookup d k = none ↔ k ∉ dkeys d := by
  induction d with
  | nil => simp [dlookup, dkeys]
  | cons p ps ih =>
    by_cases h : p.1 = k
    · simp [dlookup, h, dkeys]
    · simp [dlookup, h, dkeys, ih, Ne.symm h]

theorem dkeys_dinsert_mem (d : List (K × V)) (k : K) (v : V) (h : k ∈ dkeys d) :
    dkeys (dinsert d k v) = dkeys d := by
  induction d with
  | nil => simp [dkeys] at h
  | cons p ps ih =>
    by_cases hp : p.1 = k
    · simp [dinsert, hp, dkeys]
    · have h' : k ∈ dkeys ps := by
        rcases (mem_dkeys (p :: ps) k).mp h with ⟨q, hq, hqk⟩
        rcases List.mem_cons.mp hq with rfl | hq'
        · exact absurd hqk hp
        · exact (mem_dkeys ps k).mpr ⟨q, hq', hqk⟩
      have hih := ih h'
      simp only [dkeys] at hih
      simp [dinsert, hp, dkeys, hih]

theorem dkeys_dinsert_not_mem (d : List (K × V)) (k : K) (v : V) (h : k ∉ dkeys d) :
    dkeys (dinsert d k v) = dkeys d ++ [k] := by
  induction d with
  | nil => simp [dinsert, dkeys]
  | cons p ps ih =>
    have hp : ¬ p.1 = k := fun hh => h ((mem_dkeys _ _).mpr ⟨p, List.mem_cons_self p ps, hh⟩)
    have h' : k ∉ dkeys ps := fun hh => by
      rcases (mem_dkeys ps k).mp hh with ⟨q, hq, hqk⟩
      exact h ((mem_dkeys _ _).mpr ⟨q, List.mem_cons_of_mem p hq, hqk⟩)
    have hih := ih h'
    simp only [dkeys] at hih
    simp [dinsert, hp, dkeys, hih]

theorem length_dinsert_mem (d : List (K × V)) (k : K) (v : V) (h : k ∈ dkeys d) :
    (dinsert d k v).length = d.length := by
  have := dkeys_dinsert_mem d k v h
  have h1 : (dkeys (dinsert d k v)).length = (dkeys d).length := by rw [this]
  simpa [dkeys] using h1

theorem length_dinsert_not_mem (d : List (K × V)) (k : K) (v : V) (h : k ∉ dkeys d) :
    (dinsert d k v).length = d.length + 1 := by
  have := dkeys_dinsert_not_mem d k v h
  have h1 : (dkeys (dinsert d k v)).length = (dkeys d).length + 1 := by simp [this]
  simpa [dkeys] using h1

end DictLemmas

theorem lowerPairs_no_key_in_image :
    ∀ p ∈ lowerPairs, ∀ q ∈ lowerPairs, q.1 ≠ p.2 := by decide

theorem pyLowerChar_of_find_none {c : Char}
    (h : lowerPairs.find? (fun p => decide (p.1 = c)) = none) : pyLowerChar c = c := by
  unfold pyLowerChar
  rw [h]

theorem pyLowerChar_of_find_some {c : Char} {p : Char × Char}
    (h : lowerPairs.find? (fun p => decide (p.1 = c)) = some p) : pyLowerChar c = p.2 := by
  unfold pyLowerChar
  rw [h]

theorem pyLowerChar_idem (c : Char) : pyLowerChar (pyLowerChar c) = pyLowerChar c := by
  cases hf : lowerPairs.find? (fun p => decide (p.1 = c)) with
  | none => simp only [pyLowerChar_of_find_none hf]
  | some p =>
    rw [pyLowerChar_of_find_some hf]
    have hmem := List.mem_of_find?_eq_some hf
    refine pyLowerChar_of_find_none ?_
    rw [List.find?_eq_none]
    intro q hq
    simpa using lowerPairs_no_key_in_image p hmem q hq

theorem pyLowerChar_fixed_of_mem_lower {s : Str} {c : Char} (h : c ∈ pyLower s) :
    pyLowerChar c = c := by
  rcases List.mem_map.mp h with ⟨d, _, rfl⟩
  exact pyLowerChar_idem d

theorem pyLower_eq_self (s : Str) (h : ∀ c ∈ s, pyLowerChar c = c) : pyLower s = s := by
  induction s with
  | nil => rfl
  | cons c cs ih =>
    have hc := h c (List.mem_cons_self c cs)
    have hcs := ih (fun d hd => h d (List.mem_cons_of_mem c hd))
    simp [pyLower] at hcs ⊢
    exact ⟨hc, hcs⟩

theorem pyWordsF_congr :
    ∀ (fuel fuel' : Nat) (s : Str), s.length ≤ fuel → s.length ≤ fuel' →
      pyWordsF fuel s = pyWordsF fuel' s := by
  intro fuel
  induction fuel with
  | zero =>
    intro fuel' s h h'
    cases s with
    | nil => cases fuel' <;> rfl
    | cons c cs => simp at h
  | succ f ih =>
    intro fuel' s h h'
    cases s with
    | nil => cases fuel' <;> rfl
    | cons c cs =>
      cases fuel' with
      | zero => simp at h'
      | succ f2 =>
        have hcs : cs.length ≤ f := by simp at h; omega
        have hcs2 : cs.length ≤ f2 := by simp at h'; omega
        have hdw := (List.dropWhile_sublist (l := cs) (fun d => !pySpace d)).length_le
        by_cases hc : pySpace c
        · simp only [pyWordsF, if_pos hc]
          exact ih f2 cs hcs hcs2
        · simp only [pyWordsF, if_neg hc]
          rw [ih f2 _ (le_trans hdw hcs) (le_trans hdw hcs2)]

theorem pyWords_cons (c : Char) (cs : Str) :
    pyWords (c :: cs) =
      if pySpace c then pyWords cs
      else (c :: cs.takeWhile (fun d => !pySpace d)) ::
           pyWords (cs.dropWhile (fun d => !pySpace d)) := by
  show pyWordsF (c :: cs).length (c :: cs) = _
  simp only [List.length_cons, pyWordsF]
  by_cases hc : pySpace c
  · simp only [if_pos hc]
    rfl
  · simp only [if_neg hc]
    have hdw := (List.dropWhile_sublist (l := cs) (fun d => !pySpace d)).length_le
    rw [pyWordsF_congr cs.length _ _ hdw le_rfl]
    rfl

theorem pyWords_induction (P : Str → Prop) (h0 : P [])
    (h1 : ∀ c cs, pySpace c = true → P cs → P (c :: cs))
    (h2 : ∀ c cs, pySpace c = false →
        P (cs.dropWhile (fun d => !pySpace d)) → P (c :: cs)) :
    ∀ s, P s := by
  have key : ∀ n : Nat, ∀ s : Str, s.length ≤ n → P s := by
    intro n
    induction n with
    | zero =>
      intro s h
      cases s with
      | nil => exact h0
      | cons c cs => simp at h
    | succ n ih =>
      intro s h
      cases s with
      | nil => exact h0
      | cons c cs =>
        have hcs : cs.length ≤ n := by simp at h; omega
        by_cases hc : pySpace c
        · exact h1 c cs hc (ih cs hcs)
        · have hdw : (cs.dropWhile (fun d => !pySpace d)).length ≤ n :=
            le_trans (List.dropWhile_sublist _).length_le hcs
          exact h2 c cs (by simpa using hc) (ih _ hdw)
  exact fun s => key s.length s le_rfl

theorem pyWords_sound (s : Str) :
    ∀ w ∈ pyWords s, (w ≠ [] ∧ ∀ c ∈ w, pySpace c = false) ∧ ∀ c ∈ w, c ∈ s := by
  refine pyWords_induction
    (fun s => ∀ w ∈ pyWords s,
      (w ≠ [] ∧ ∀ c ∈ w, pySpace c = false) ∧ ∀ c ∈ w, c ∈ s) ?_ ?_ ?_ s
  · intro w hw
    simp [pyWords, pyWordsF] at hw
  · intro c cs hsp ih w hw
    rw [pyWords_cons, if_pos hsp] at hw
    rcases ih w hw with ⟨hok, hmem⟩
    exact ⟨hok, fun d hd => List.mem_cons_of_mem c (hmem d hd)⟩
  · intro c cs hspc ih w hw
    rw [pyWords_cons, if_neg (by simp [hspc])] at hw
    rcases List.mem_cons.mp hw with rfl | hw'
    · refine ⟨⟨by simp, ?_⟩, ?_⟩
      · intro d hd
        rcases List.mem_cons.mp hd with rfl | hd'
        · exact hspc
        · have := List.mem_takeWhile_imp hd'
          simpa using this
      · intro d hd
        rcases List.mem_cons.mp hd with rfl | hd'
        · exact List.mem_cons_self d cs
        · exact List.mem_cons_of_mem c ((List.takeWhile_sublist _).subset hd')
    · rcases ih w hw' with ⟨hok, hmem⟩
      exact ⟨hok, fun d hd =>
        List.mem_cons_of_mem c ((List.dropWhile_sublist _).subset (hmem d hd))⟩

theorem pyWords_single (w : Str) (hne : w ≠ []) (hns : ∀ c ∈ w, pySpace c = false) :
    pyWords w = [w] := by
  cases w with
  | nil => exact absurd rfl hne
  | cons c cs =>
    have hc : pySpace c = false := hns c (List.mem_cons_self c cs)
    have htw : cs.takeWhile (fun d => !pySpace d) = cs :=
      List.takeWhile_eq_self_iff.mpr (fun d hd => by
        simp [hns d (List.mem_cons_of_mem c hd)])
    have hdw : cs.dropWhile (fun d => !pySpace d) = [] :=
      List.dropWhile_eq_nil_iff.mpr (fun d hd => by
        simp [hns d (List.mem_cons_of_mem c hd)])
    rw [pyWords_cons, if_neg (by simp [hc]), htw, hdw]
    rfl

theorem pyWords_word_append (w : Str) (hne : w ≠ [])
    (hns : ∀ c ∈ w, pySpace c = false) (t : Str) :
    pyWords (w ++ ' ' :: t) = w :: pyWords t := by
  cases w with
  | nil => exact absurd rfl hne
  | cons c cs =>
    have hc : pySpace c = false := hns c (List.mem_cons_self c cs)
    have hcs : ∀ d ∈ cs, (fun d => !pySpace d) d = true := fun d hd => by
      simp [hns d (List.mem_cons_of_mem c hd)]
    have hsp : pySpace ' ' = true := by decide
    have h1 : (cs ++ ' ' :: t).takeWhile (fun d => !pySpace d) = cs := by
      rw [List.takeWhile_append_of_pos hcs]
      simp [List.takeWhile_cons, hsp]
    have h2 : (cs ++ ' ' :: t).dropWhile (fun d => !pySpace d) = ' ' :: t := by
      rw [List.dropWhile_append_of_pos hcs]
      simp [List.dropWhile_cons, hsp]
    show pyWords (c :: (cs ++ ' ' :: t)) = (c :: cs) :: pyWords t
    rw [pyWords_cons, if_neg (by simp [hc]), h1, h2, pyWords_cons, if_pos hsp]

theorem pyWords_joinSp (ws : List Str)
    (h : ∀ w ∈ ws, w ≠ [] ∧ ∀ c ∈ w, pySpace c = false) :
    pyWords (joinSp ws) = ws := by
  induction ws with
  | nil => rfl
  | cons w ws ih =>
    cases ws with
    | nil =>
      have hw := h w (List.mem_cons_self w [])
      show pyWords (joinSp [w]) = [w]
      rw [show joinSp [w] = w from rfl]
      exact pyWords_single w hw.1 hw.2
    | cons w2 ws2 =>
      have hw := h w (List.mem_cons_self w (w2 :: ws2))
      have htail : ∀ u ∈ w2 :: ws2, u ≠ [] ∧ ∀ c ∈ u, pySpace c = false :=
        fun u hu => h u (List.mem_cons_of_mem w hu)
      rw [show joinSp (w :: w2 :: ws2) = w ++ ' ' :: joinSp (w2 :: ws2) from rfl,
          pyWords_word_append w hw.1 hw.2, ih htail]

theorem mem_joinSp {c : Char} :
    ∀ ws : List Str, c ∈ joinSp ws → c = ' ' ∨ ∃ w ∈ ws, c ∈ w := by
  intro ws
  induction ws with
  | nil => intro h; simp [joinSp] at h
  | cons w ws ih =>
    cases ws with
    | nil =>
      intro h
      rw [show joinSp [w] = w from rfl] at h
      exact Or.inr ⟨w, List.mem_cons_self w [], h⟩
    | cons w2 ws2 =>
      intro h
      rw [show joinSp (w :: w2 :: ws2) = w ++ ' ' :: joinSp (w2 :: ws2) from rfl] at h
      rcases List.mem_append.mp h with h1 | h2
      · exact Or.inr ⟨w, List.mem_cons_self w _, h1⟩
      · rcases List.mem_cons.mp h2 with rfl | h3
        · exact Or.inl rfl
        · rcases ih h3 with hsp | ⟨u, hu, hcu⟩
          · exact Or.inl hsp
          · exact Or.inr ⟨u, List.mem_cons_of_mem w hu, hcu⟩

theorem mapGetD_of_find_none {m : List (Str × Str)} {w : Str}
    (h : m.find? (fun p => decide (p.1 = w)) = none) : mapGetD m w = w := by
  unfold mapGetD
  rw [h]

theorem mapGetD_of_find_some {m : List (Str × Str)} {w : Str} {p : Str × Str}
    (h : m.find? (fun p => decide (p.1 = w)) = some p) : mapGetD m w = p.2 := by
  unfold mapGetD
  rw [h]

theorem norm_map_singleton {p : Str × Str} (h : p ∈ NORMALIZATION_MAP) :
    p = ("vinere".data, "vineri".data) := by
  simpa [NORMALIZATION_MAP] using h

theorem mapGetD_norm_idem (w : Str) :
    mapGetD NORMALIZATION_MAP (mapGetD NORMALIZATION_MAP w) = mapGetD NORMALIZATION_MAP w := by
  cases hf : NORMALIZATION_MAP.find? (fun p => decide (p.1 = w)) with
  | none => simp only [mapGetD_of_find_none hf]
  | some p =>
    rw [mapGetD_of_find_some hf, norm_map_singleton (List.mem_of_find?_eq_some hf)]
    decide

theorem mapGetD_norm_ok (w : Str) (hne : w ≠ []) (hns : ∀ c ∈ w, pySpace c = false)
    (hlc : ∀ c ∈ w, pyLowerChar c = c) :
    (mapGetD NORMALIZATION_MAP w ≠ [] ∧
      ∀ c ∈ mapGetD NORMALIZATION_MAP w, pySpace c = false) ∧
    ∀ c ∈ mapGetD NORMALIZATION_MAP w, pyLowerChar c = c := by
  cases hf : NORMALIZATION_MAP.find? (fun p => decide (p.1 = w)) with
  | none =>
    rw [mapGetD_of_find_none hf]
    exact ⟨⟨hne, hns⟩, hlc⟩
  | some p =>
    rw [mapGetD_of_find_some hf, norm_map_singleton (List.mem_of_find?_eq_some hf)]
    refine ⟨⟨by decide, ?_⟩, ?_⟩ <;> decide

theorem map_congr_mem {α β : Type} (f g : α → β) :
    ∀ l : List α, (∀ a ∈ l, f a = g a) → l.map f = l.map g := by
  intro l h
  induction l with
  | nil => rfl
  | cons a l ih =>
    simp only [List.map_cons, h a (List.mem_cons_self a l),
      ih (fun b hb => h b (List.mem_cons_of_mem a hb))]

theorem normalize_joinSp (ws : List Str)
    (h : ∀ w ∈ ws, ((w ≠ [] ∧ ∀ c ∈ w, pySpace c = false) ∧ ∀ c ∈ w, pyLowerChar c = c)) :
    normalize (joinSp ws) = joinSp (ws.map (fun w => mapGetD NORMALIZATION_MAP w)) := by
  unfold normalize
  have hfix : pyLower (joinSp ws) = joinSp ws := by
    refine pyLower_eq_self _ (fun c hc => ?_)
    rcases mem_joinSp ws hc with rfl | ⟨w, hw, hcw⟩
    · decide
    · exact (h w hw).2 c hcw
  rw [hfix, pyWords_joinSp ws (fun w hw => (h w hw).1)]

/-- C9: `normalize` is a total deterministic Lean function on all strings
(its type is `Str → Str` with no error outcome), and it is idempotent:
normalizing an already-normalized string changes nothing. -/
theorem normalize_idempotent (x : Str) : normalize (normalize x) = normalize x := by
  have hws : ∀ w ∈ (pyWords (pyLower x)).map (fun w => mapGetD NORMALIZATION_MAP w),
      ((w ≠ [] ∧ ∀ c ∈ w, pySpace c = false) ∧ ∀ c ∈ w, pyLowerChar c = c) := by
    intro w hw
    rcases List.mem_map.mp hw with ⟨u, hu, rfl⟩
    rcases pyWords_sound (pyLower x) u hu with ⟨⟨hne, hns⟩, hmem⟩
    exact mapGetD_norm_ok u hne hns
      (fun c hc => pyLowerChar_fixed_of_mem_lower (hmem c hc))
  have h1 : normalize x =
      joinSp ((pyWords (pyLower x)).map (fun w => mapGetD NORMALIZATION_MAP w)) := rfl
  rw [h1, normalize_joinSp _ hws, List.map_map]
  congr 1
  refine map_congr_mem _ _ _ (fun w _ => ?_)
  simpa [Function.comp] using mapGetD_norm_idem w

theorem merge_session_append (prior : GStore) (l : List Rec) (r : Rec) :
    merge_session prior (l ++ [r]) =
      dinsert (merge_session prior l) (r.normalized, r.lang) r := by
  simp [merge_session, List.foldl_append]

theorem lastBatch_append (l : List Rec) (r : Rec) (k : GKey) :
    lastBatch (l ++ [r]) k =
      if (r.normalized, r.lang) = k then some r else lastBatch l k := by
  by_cases h : (r.normalized, r.lang) = k
  · simp [lastBatch, List.find?, h]
  · simp [lastBatch, List.find?, h]

theorem merge_session_lookup (prior : GStore) (results : List Rec) (k : GKey) :
    dlookup (merge_session prior results) k =
      match lastBatch results k with
      | some r => some r
      | none => dlookup prior k := by
  induction results using List.reverseRecOn with
  | nil => simp [merge_session, lastBatch]
  | append_singleton l r ih =>
    rw [merge_session_append, lastBatch_append]
    by_cases h : (r.normalized, r.lang) = k
    · rw [if_pos h, h, dlookup_dinsert_self]
    · rw [if_neg h, dlookup_dinsert_ne _ _ _ _ (fun hh => h hh.symm), ih]

/-- C3: merging a freshly processed batch into a session store in append mode
is union-of-keys with unconditional overwrite by the batch: a key the batch
carries maps to the batch's (last) record for it regardless of the prior
value, a key only in the prior store keeps its prior record, and merging a
batch of 1 overlapping + 2 new records into a 3-record store yields a store
of exactly 5 records. -/
theorem merge_unconditional_overwrite :
    (∀ (prior : GStore) (results : List Rec) (k : GKey) (r : Rec),
      lastBatch results k = some r →
      dlookup (merge_session prior results) k = some r) ∧
    (∀ (prior : GStore) (results : List Rec) (k : GKey),
      lastBatch results k = none →
      dlookup (merge_session prior results) k = dlookup prior k) ∧
    (merge_session prior3 batch3).length = 5 := by
  refine ⟨?_, ?_, by decide⟩
  · intro prior results k r h
    rw [merge_session_lookup, h]
  · intro prior results k h
    rw [merge_session_lookup, h]

/-- C3 witness: on the concrete 3-record store and 1-overlap + 2-new batch,
the overlapping key holds the batch's record and a non-overlapping prior key
keeps its prior record. -/
theorem merge_unconditional_overwrite_witness :
    dlookup (merge_session prior3 batch3) ("a".data, "ru".data) =
      some (mkRec "a".data "ru".data "❌".data []) ∧
    dlookup (merge_session prior3 batch3) ("b".data, "ru".data) =
      dlookup prior3 ("b".data, "ru".data) :=
  ⟨merge_unconditional_overwrite.1 prior3 batch3 _ _ (by decide),
   merge_unconditional_overwrite.2.1 prior3 batch3 _ (by decide)⟩

theorem read_existing_append (l : List RecC) (r : RecC) :
    read_existing_csv (l ++ [r]) =
      (if pyStrip r.normalized ≠ [] then
        dinsert (read_existing_csv l) (pyStrip r.normalized) r
      else read_existing_csv l) := by
  simp [read_existing_csv, List.foldl_append]

theorem read_existing_lookup (rows : List RecC) (k : Str) (hk : k ≠ []) :
    dlookup (read_existing_csv rows) k =
      rows.reverse.find? (fun r => decide (pyStrip r.normalized = k)) := by
  induction rows using List.reverseRecOn with
  | nil => simp [read_existing_csv, dlookup]
  | append_singleton l r ih =>
    rw [read_existing_append]
    have hrev : (l ++ [r]).reverse = r :: l.reverse := by simp
    rw [hrev]
    by_cases hm : pyStrip r.normalized = k
    · have hv : pyStrip r.normalized ≠ [] := by rw [hm]; exact hk
      rw [if_pos hv, hm, dlookup_dinsert_self]
      simp [List.find?, hm]
    · have hfind : (r :: l.reverse).find? (fun r => decide (pyStrip r.normalized = k)) =
          l.reverse.find? (fun r => decide (pyStrip r.normalized = k)) := by
        simp [List.find?, hm]
      rw [hfind]
      by_cases hv : pyStrip r.normalized = []
      · rw [if_neg (by simpa using hv)]
        exact ih
      · rw [if_pos (by simpa using hv),
            dlookup_dinsert_ne _ _ _ _ (fun hh => hm hh.symm)]
        exact ih

theorem read_existing_keys (rows : List RecC) :
    (dkeys (read_existing_csv rows)).Nodup ∧
    ∀ k, k ∈ dkeys (read_existing_csv rows) ↔
      (k ≠ [] ∧ ∃ r ∈ rows, pyStrip r.normalized = k) := by
  induction rows using List.reverseRecOn with
  | nil =>
    refine ⟨by simp [read_existing_csv, dkeys], fun k => ?_⟩
    simp [read_existing_csv, dkeys]
  | append_singleton l r ih =>
    rw [read_existing_append]
    by_cases hv : pyStrip r.normalized = []
    · rw [if_neg (by simpa using hv)]
      refine ⟨ih.1, fun k => ?_⟩
      rw [ih.2 k]
      constructor
      · rintro ⟨hk, q, hq, hqk⟩
        exact ⟨hk, q, List.mem_append_left _ hq, hqk⟩
      · rintro ⟨hk, q, hq, hqk⟩
        rcases List.mem_append.mp hq with hql | hqr
        · exact ⟨hk, q, hql, hqk⟩
        · rcases List.mem_singleton.mp hqr with rfl
          have : k = [] := by rw [← hqk, hv]
          exact absurd this hk
    · rw [if_pos (by simpa using hv)]
      by_cases hmem : pyStrip r.normalized ∈ dkeys (read_existing_csv l)
      · refine ⟨by rw [dkeys_dinsert_mem _ _ _ hmem]; exact ih.1, fun k => ?_⟩
        rw [dkeys_dinsert_mem _ _ _ hmem, ih.2 k]
        constructor
        · rintro ⟨hk, q, hq, hqk⟩
          exact ⟨hk, q, List.mem_append_left _ hq, hqk⟩
        · rintro ⟨hk, q, hq, hqk⟩
          rcases List.mem_append.mp hq with hql | hqr
          · exact ⟨hk, q, hql, hqk⟩
          · rcases List.mem_singleton.mp hqr with rfl
            have hkk : k = pyStrip q.normalized := hqk.symm
            subst hkk
            exact (ih.2 _).mp hmem
      · refine ⟨?_, fun k => ?_⟩
        · rw [dkeys_dinsert_not_mem _ _ _ hmem]
          simp [List.nodup_append, ih.1, hmem]
        · rw [dkeys_dinsert_not_mem _ _ _ hmem]
          simp only [List.mem_append, List.mem_singleton]
          rw [ih.2 k]
          constructor
          · rintro (⟨hk, q, hq, hqk⟩ | rfl)
            · exact ⟨hk, q, Or.inl hq, hqk⟩
            · exact ⟨hv, r, Or.inr rfl, rfl⟩
          · rintro ⟨hk, q, hql | rfl, hqk⟩
            · exact Or.inl ⟨hk, q, hql, hqk⟩
            · exact Or.inr hqk.symm

theorem load_csv_append (l : List Row) (r : Row) :
    load_csv_cache (l ++ [r]) =
      dinsert (load_csv_cache l) (rowKey r) (rowDefaults r) := by
  simp [load_csv_cache, List.foldl_append, pyTruthyPair, rowKey]

theorem load_csv_lookup (rows : List Row) (gk : GKey) :
    dlookup (load_csv_cache rows) gk =
      (rows.reverse.find? (fun r => decide (rowKey r = gk))).map rowDefaults := by
  induction rows using List.reverseRecOn with
  | nil => simp [load_csv_cache, dlookup]
  | append_singleton l r ih =>
    rw [load_csv_append]
    have hrev : (l ++ [r]).reverse = r :: l.reverse := by simp
    rw [hrev]
    by_cases hm : rowKey r = gk
    · rw [hm, dlookup_dinsert_self]
      simp [List.find?, hm]
    · rw [dlookup_dinsert_ne _ _ _ _ (fun hh => hm hh.symm), ih]
      simp [List.find?, hm]

theorem load_csv_keys (rows : List Row) :
    (dkeys (load_csv_cache rows)).Nodup ∧
    ∀ gk, gk ∈ dkeys (load_csv_cache rows) ↔ ∃ r ∈ rows, rowKey r = gk := by
  induction rows using List.reverseRecOn with
  | nil =>
    refine ⟨by simp [load_csv_cache, dkeys], fun gk => ?_⟩
    simp [load_csv_cache, dkeys]
  | append_singleton l r ih =>
    rw [load_csv_append]
    by_cases hmem : rowKey r ∈ dkeys (load_csv_cache l)
    · refine ⟨by rw [dkeys_dinsert_mem _ _ _ hmem]; exact ih.1, fun gk => ?_⟩
      rw [dkeys_dinsert_mem _ _ _ hmem, ih.2 gk]
      constructor
      · rintro ⟨q, hq, hqk⟩
        exact ⟨q, List.mem_append_left _ hq, hqk⟩
      · rintro ⟨q, hq, hqk⟩
        rcases List.mem_append.mp hq with hql | hqr
        · exact ⟨q, hql, hqk⟩
        · rcases List.mem_singleton.mp hqr with rfl
          have hkk : gk = rowKey q := hqk.symm
          subst hkk
          exact (ih.2 _).mp hmem
    · refine ⟨?_, fun gk => ?_⟩
      · rw [dkeys_dinsert_not_mem _ _ _ hmem]
        simp [List.nodup_append, ih.1, hmem]
      · rw [dkeys_dinsert_not_mem _ _ _ hmem]
        simp only [List.mem_append, List.mem_singleton]
        rw [ih.2 gk]
        constructor
        · rintro (⟨q, hq, hqk⟩ | rfl)
          · exact ⟨q, Or.inl hq, hqk⟩
          · exact ⟨r, Or.inr rfl, rfl⟩
        · rintro ⟨q, hql | rfl, hqk⟩
          · exact Or.inl ⟨q, hql, hqk⟩
          · exact Or.inr hqk.symm

/-- C10: in BOTH loaders, when a loaded file holds several rows with the same
identity key the store maps that key to the LAST such row in file order (later
rows silently overwrite earlier ones), and the store's keys are duplicate-free
and exactly the distinct keys of the (kept) rows, so its size is the number of
distinct keys rather than the number of rows.  For the CLI loader
`read_existing_csv` the kept rows are those with a non-blank stripped key; the
GUI loader `load_csv_cache` keeps every row (see C5), keyed by the stripped
`(normalized, lang)` pair of the defaults-applied row, and stores the
defaults-applied row. -/
theorem load_last_write_wins (rows : List RecC) (grows : List Row)
    (k : Str) (gk : GKey) (hk : k ≠ []) :
    (dlookup (read_existing_csv rows) k =
      rows.reverse.find? (fun r => decide (pyStrip r.normalized = k))) ∧
    (dkeys (read_existing_csv rows)).Nodup ∧
    (k ∈ dkeys (read_existing_csv rows) ↔ ∃ r ∈ rows, pyStrip r.normalized = k) ∧
    (dlookup (load_csv_cache grows) gk =
      (grows.reverse.find? (fun r => decide (rowKey r = gk))).map rowDefaults) ∧
    (dkeys (load_csv_cache grows)).Nodup ∧
    (gk ∈ dkeys (load_csv_cache grows) ↔ ∃ r ∈ grows, rowKey r = gk) :=
  ⟨read_existing_lookup rows k hk, (read_existing_keys rows).1, by
    rw [(read_existing_keys rows).2 k]
    exact and_iff_right hk,
   load_csv_lookup grows gk, (load_csv_keys grows).1, (load_csv_keys grows).2 gk⟩

/-- C10 witness: instantiated on two CLI rows sharing the key `x` and two GUI
rows sharing the key `("x", "ru")`. -/
theorem load_last_write_wins_witness :
    (dlookup (read_existing_csv rowsW) "x".data =
      rowsW.reverse.find? (fun r => decide (pyStrip r.normalized = "x".data))) ∧
    (dkeys (read_existing_csv rowsW)).Nodup ∧
    ("x".data ∈ dkeys (read_existing_csv rowsW) ↔
      ∃ r ∈ rowsW, pyStrip r.normalized = "x".data) ∧
    (dlookup (load_csv_cache growsW) ("x".data, "ru".data) =
      (growsW.reverse.find?
        (fun r => decide (rowKey r = ("x".data, "ru".data)))).map rowDefaults) ∧
    (dkeys (load_csv_cache growsW)).Nodup ∧
    (("x".data, "ru".data) ∈ dkeys (load_csv_cache growsW) ↔
      ∃ r ∈ growsW, rowKey r = ("x".data, "ru".data)) :=
  load_last_write_wins rowsW growsW "x".data ("x".data, "ru".data) (by decide)

/-- C1 (the code falsifies the claim): the CLI batch run persists TWO records
with the same identity key.  With an empty cache, the phrases `Vinere` and
`vineri` both normalize to `vineri`, yet the rows written by `save_to_csv`
contain two records whose `normalized` is `vineri`: `transcribe` never adds
fresh records to the consulted cache, and `main` appends every result to the
list of already-cached rows, so the persisted store does not have at most one
record per identity key. -/
theorem cli_run_duplicates_key :
    ((cli_run trOk [] ["Vinere".data, "vineri".data]).1.filter
      (fun r => decide (r.normalized = "vineri".data))).length = 2 := by decide

/-- C6 (the code falsifies the claim): in the same CLI run the external
translator is invoked TWICE for the single identity key `vineri` — the ghost
log of translator calls holds the key twice, because a record created earlier
in the batch is never added to the consulted cache. -/
theorem cli_translates_same_key_twice :
    (cli_run trOk [] ["Vinere".data, "vineri".data]).2 =
      ["vineri".data, "vineri".data] := by decide

/-- C5 (the code falsifies the claim): the GUI loader KEEPS a row whose
`normalized` field is blank, storing it under the unusable key `("", "ru")`.
The guard `if key:` tests the truthiness of the 2-tuple key, which is always
true, so — unlike the CLI loader — no row is ever skipped. -/
theorem load_gui_keeps_blank_key_row :
    load_csv_cache [blankRow] = [(([], "ru".data), rowDefaults blankRow)] := by
  decide

/-- C4 (the code falsifies the claim): pressing the know button records
`known = yes` with today's date exactly for the card's key, but pressing the
do-not-know button in a script run where no know button fired raises
`NameError` — the handler reads the local `k`, which only the know branch
assigns — so `setKnown(key, false)` records nothing at all. -/
theorem dontknow_handler_name_error :
    dontknow_handler (runStart om0 dm0) = Except.error PyErr.nameError ∧
    know_handler k0 "2024-06-01".data (runStart [] []) =
      { known_map := [(k0, "✅".data)]
        date_known_map := [(k0, "2024-06-01".data)]
        kvar := some k0 } := by
  exact ⟨rfl, rfl⟩

/-- C7 counterexample: the CLI audio operation, asked for a file whose derived
path `audio.mp3` already exists, still invokes the synthesizer (one call) and
overwrites the existing content — the claim's existence check is absent from
the CLI `speak`. -/
theorem cli_speak_regenerates_existing :
    (cli_speak synth0 "x".data "ro".data "audio".data fs0).2 = 1 ∧
    dlookup (cli_speak synth0 "x".data "ro".data "audio".data fs0).1
        "audio.mp3".data ≠ some "OLD".data := by
  decide

/-- C7 (amended): in the GUI audio artifact cache, a request whose derived
path already exists returns that path with zero synthesizer calls and the
filesystem — hence the existing file — unchanged; the synthesizer is invoked
(once, writing the derived path) only when the file is absent.  The CLI
`speak` lacks the check (see the counterexample). -/
theorem gui_speak_existence_cache (synth : Str → Str → Str)
    (phrase filename lang : Str) (fs : List (Str × Str)) :
    ((dlookup fs (ospathJoin AUDIO_FOLDER filename)).isSome = true →
      gui_speak synth phrase filename lang fs =
        { path := ospathJoin AUDIO_FOLDER filename, fs := fs, synthCalls := 0 }) ∧
    ((dlookup fs (ospathJoin AUDIO_FOLDER filename)).isSome = false →
      gui_speak synth phrase filename lang fs =
        { path := ospathJoin AUDIO_FOLDER filename
          fs := dinsert fs (ospathJoin AUDIO_FOLDER filename) (synth phrase lang)
          synthCalls := 1 }) := by
  constructor
  · intro h
    simp [gui_speak, h]
  · intro h
    simp [gui_speak, h]

/-- C7 witness: on a filesystem already holding the derived path, the GUI
`speak` returns it untouched with no synthesis. -/
theorem gui_speak_existence_cache_witness :
    gui_speak synth0 "x".data "f.mp3".data "ro".data
        [(ospathJoin AUDIO_FOLDER "f.mp3".data, "OLD".data)] =
      { path := ospathJoin AUDIO_FOLDER "f.mp3".data
        fs := [(ospathJoin AUDIO_FOLDER "f.mp3".data, "OLD".data)]
        synthCalls := 0 } :=
  (gui_speak_existence_cache synth0 "x".data "f.mp3".data "ro".data
    [(ospathJoin AUDIO_FOLDER "f.mp3".data, "OLD".data)]).1 (by decide)

/-- C8: the translation gateway never lets a collaborator failure escape as an
exception: its result is always a plain string — on failure the sentinel
embedding the failure reason — and whatever it returns is stored verbatim as
the `translation` field of the record the processing loop caches for the
phrase's identity key. -/
theorem gateway_sentinel_stored (tr : Str → Str → Except Str Str) (p : Str)
    (cache : GStore) (lang study category today : Str)
    (hmiss : dlookup cache (normalize p, lang) = none) :
    ((dlookup (process_phrases tr [p] cache lang study category today).cache
        (normalize p, lang)).map Rec.translation =
      some (translate_phrase tr (normalize p)
        (if lang ≠ study then lang else "ru".data))) ∧
    (∀ e, tr (normalize p) (if lang ≠ study then lang else "ru".data) =
        Except.error e →
      translate_phrase tr (normalize p) (if lang ≠ study then lang else "ru".data) =
        "[ошибка перевода: ".data ++ e ++ "]".data) := by
  constructor
  · simp only [process_phrases, List.foldl_cons, List.foldl_nil, hmiss]
    rw [dlookup_dinsert_self]
    rfl
  · intro e he
    unfold translate_phrase
    rw [he]

/-- C8 witness: with a translator that always fails with reason `net down`,
processing `vineri` against an empty cache stores the sentinel verbatim. -/
theorem gateway_sentinel_stored_witness :
    ((dlookup (process_phrases trFail ["vineri".data] [] "ru".data "ro".data
        [] []).cache (normalize "vineri".data, "ru".data)).map Rec.translation =
      some (translate_phrase trFail (normalize "vineri".data)
        (if "ru".data ≠ "ro".data then "ru".data else "ru".data))) ∧
    (∀ e, trFail (normalize "vineri".data)
        (if "ru".data ≠ "ro".data then "ru".data else "ru".data) =
        Except.error e →
      translate_phrase trFail (normalize "vineri".data)
        (if "ru".data ≠ "ro".data then "ru".data else "ru".data) =
        "[ошибка перевода: ".data ++ e ++ "]".data) :=
  gateway_sentinel_stored trFail "vineri".data [] "ru".data "ro".data [] [] rfl

/-- C2 counterexample: a save reachable while the overlay holds an entry for a
key writes a record that does NOT carry the overlay's values.  The overlay
says `known = yes` for `k0`, the durable cache still says `known = no`;
processing the phrase `vineri` then saving `list(cache.values())` (the GUI
process path, lines 216-217) writes the single record for `k0` with
`known = no`: no reconciliation ran before this save or the merge that
follows it. -/
theorem process_save_ignores_overlay :
    dlookup om0 k0 = some "✅".data ∧
    (dvalues (process_phrases trOkG ["vineri".data] [(k0, rec0)]
        "ru".data "ro".data [] []).cache).map Rec.known = ["❌".data] := by
  exact ⟨by decide, by decide⟩

/-- C2 (amended): reconciliation is guaranteed only on the card-save path and
only for records in the current filtered display: for such a record, the
flashcards loop rewrites `known` / `date_known` from the overlay in place
before the save-cards button persists the rows, so the saved row carries the
overlay's values; records outside the display and the process/merge save path
are written without overlay reconciliation (see the counterexample). -/
theorem save_cards_carries_overlay (displayP : Rec → Bool)
    (km dkm : List (GKey × Str)) (results : List Rec) (i : Nat) (r : Rec)
    (v w : Str)
    (hi : results[i]? = some r)
    (hd : displayP r = true)
    (hv : dlookup km (r.normalized, r.lang) = some v)
    (hw : dlookup dkm (r.normalized, r.lang) = some w) :
    ∃ r2, (save_cards_rows displayP km dkm results)[i]? = some r2 ∧
      r2.known = v ∧ r2.date_known = w ∧
      r2.normalized = r.normalized ∧ r2.lang = r.lang := by
  simp only [save_cards_rows, reconcile_displayed, List.getElem?_map, hi,
    Option.map_some']
  refine ⟨_, rfl, ?_, ?_, ?_, ?_⟩ <;> simp [hd, hv, hw]

/-- C2 witness: a displayed record whose key has overlay entries is saved with
the overlay's `known` and `date_known`. -/
theorem save_cards_carries_overlay_witness :
    ∃ r2, (save_cards_rows (fun _ => true) om0 dm0 [rec0])[0]? = some r2 ∧
      r2.known = "✅".data ∧ r2.date_known = "2024-06-01".data ∧
      r2.normalized = rec0.normalized ∧ r2.lang = rec0.lang :=
  save_cards_carries_overlay (fun _ => true) om0 dm0 [rec0] 0 rec0
    "✅".data "2024-06-01".data rfl rfl (by decide) (by decide)

end Transcriber
